import Mathlib

/-!
# Verification of the file/folder tree mutation engine

Shallow embedding of the TypeScript tree store (`src/lib/stores/treeStore.ts`)
and of the drag-drop handler of the tree item component.

Conventions of the embedding:
* JavaScript arrays become `List`, `string | null` (and optional string
  parameters) become `Option String`.
* JavaScript truthiness on strings is explicit: the empty string is falsy
  (`jsTruthy`), and `parent?.id || null` collapses an empty id to `null`
  (`idOrNull`).
* `toLowerCase` is modelled as per-character ASCII lowercasing.
* The recursive helpers of the source traverse a node list and recurse into
  folder children; each is embedded as a mutual pair: one function for the
  loop over a list of nodes, one for the loop body on a single node.
* The source mutates state through a single serialized store; each store
  command becomes a state-in/state-out function.  A command whose remote
  persistence call may fail takes the outcome of that call as an explicit
  `success : Bool` argument, and the freshly minted node id as an argument.
* The upward walk of `moveNode`'s cycle guard is a `while` loop re-looking
  up parents by id; it is embedded with an explicit fuel of
  `countForest nodes + 1`, an upper bound on the length of any parent chain.
-/

/-- A node of the tree: `file id name` or `folder id name children expanded`.
Mirrors the `FileItem` / `FolderItem` tagged union of the source. -/
inductive TreeNode : Type where
  | file : String → String → TreeNode
  | folder : String → String → List TreeNode → Bool → TreeNode
deriving Repr

namespace TreeNode

/-- The `id` field of a node. -/
def tid : TreeNode → String
  | .file i _ => i
  | .folder i _ _ _ => i

/-- The `name` field of a node. -/
def tname : TreeNode → String
  | .file _ n => n
  | .folder _ n _ _ => n

/-- The `isFolder` type guard of the source. -/
def isFolderB : TreeNode → Bool
  | .file _ _ => false
  | .folder _ _ _ _ => true

/-- The `getChildren` helper of the source: a folder's children, `[]` for a file. -/
def getChildren : TreeNode → List TreeNode
  | .file _ _ => []
  | .folder _ _ cs _ => cs

end TreeNode

open TreeNode
open List

/-- JavaScript truthiness of a `string | null` / optional string value:
`null`, `undefined` and the empty string are falsy. -/
def jsTruthy : Option String → Bool
  | none => false
  | some s => !(s == "")

/-- The JavaScript expression `node?.id || null`: the node's id, except that
a missing node or an empty id yields `null`. -/
def idOrNull : Option TreeNode → Option String
  | none => none
  | some p => if tid p = "" then none else some (tid p)

/- `findNode(nodes, id)` of the source: scan the list; return the first node
whose id matches; otherwise search each folder's children before moving on. -/
mutual

def findNode1 (x : String) : TreeNode → Option TreeNode
  | .file i n => if i = x then some (.file i n) else none
  | .folder i n cs e =>
    if i = x then some (.folder i n cs e) else findNodeF x cs

def findNodeF (x : String) : List TreeNode → Option TreeNode
  | [] => none
  | n :: rest =>
    match findNode1 x n with
    | some found => some found
    | none => findNodeF x rest

end

/- `findParent(nodes, id, parent)` of the source.  The body on one node
returns `some r` when the scan returns `r` at this node (the source's
`return parent` / `return found` / the sibling `some` check) and `none` when
the loop moves on to the next node. -/
mutual

def findParent1 (x : String) (par : Option TreeNode) :
    TreeNode → Option (Option TreeNode)
  | .file i _ => if i = x then some par else none
  | .folder i nm cs e =>
    if i = x then some par
    else
      match findParentF x (some (.folder i nm cs e)) cs with
      | some p => some (some p)
      | none =>
        if cs.any (fun c => tid c == x) then some (some (.folder i nm cs e))
        else none

def findParentF (x : String) (par : Option TreeNode) :
    List TreeNode → Option TreeNode
  | [] => none
  | n :: rest =>
    match findParent1 x par n with
    | some r => r
    | none => findParentF x par rest

end

/-- `getChildrenOfParent(nodes, parentId)` of the source: the root list for
`null`, the parent's children when found, `[]` otherwise. -/
def getChildrenOfParent (nodes : List TreeNode) : Option String → List TreeNode
  | none => nodes
  | some pid =>
    match findNodeF pid nodes with
    | some parent => getChildren parent
    | none => []

/- The value returned by `removeNode(nodes, id)` of the source: filter the
list, dropping nodes whose id matches, and recursively remove from the
children of every kept folder. -/
mutual

def removeElt (x : String) : TreeNode → TreeNode
  | .file i n => .file i n
  | .folder i n cs e => .folder i n (removeNodeF x cs) e

def removeNodeF (x : String) : List TreeNode → List TreeNode
  | [] => []
  | n :: rest =>
    if tid n = x then removeNodeF x rest
    else removeElt x n :: removeNodeF x rest

end

/-- The value of the *input* list after `removeNode(nodes, id)` has run: the
source's filter callback reassigns `node.children` in place on every kept
folder, so after the call each element of the original array reflects the
removal, while elements whose id matched were skipped before mutation and a
matching top-level element is merely absent from the *returned* array, not
from the input array. -/
def removeInputAfter (x : String) (nodes : List TreeNode) : List TreeNode :=
  nodes.map (fun n => if tid n = x then n else removeElt x n)

/- `addNodeToParent(nodes, parentId, newNode)` of the source: map over the
list; a folder whose id matches gets `newNode` appended to its children and
`expanded` forced to `true`; any other folder recurses; files are unchanged. -/
mutual

def addElt (pid : String) (newNode : TreeNode) : TreeNode → TreeNode
  | .file i n => .file i n
  | .folder i n cs e =>
    if i = pid then .folder i n (cs ++ [newNode]) true
    else .folder i n (addNodeF pid newNode cs) e

def addNodeF (pid : String) (newNode : TreeNode) : List TreeNode → List TreeNode
  | [] => []
  | n :: rest => addElt pid newNode n :: addNodeF pid newNode rest

end

/-- Per-character lowercasing, the model of JavaScript `toLowerCase()`. -/
def lowerStr (s : String) : String := ⟨s.data.map Char.toLower⟩

/-- `children.some(c => c.name.toLowerCase() === cand.toLowerCase())`:
case-insensitive check whether a sibling already bears the candidate name. -/
def hasDupName (children : List TreeNode) (cand : String) : Bool :=
  children.any (fun c => lowerStr (tname c) == lowerStr cand)

/-- Decimal digit character, used to model `${counter}`. -/
def digitChar10 (d : Nat) : Char := Char.ofNat (48 + d)

/-- Little-endian decimal digits of `n`, with explicit fuel. -/
def digitsRevAux : Nat → Nat → List Nat
  | 0, _ => []
  | fuel + 1, n => if n = 0 then [] else n % 10 :: digitsRevAux fuel (n / 10)

/-- The characters of the usual decimal representation of `n`,
the model of JavaScript number-to-string interpolation. -/
def natReprChars (n : Nat) : List Char :=
  if n = 0 then ['0'] else ((digitsRevAux n n).map digitChar10).reverse

/-- Decimal representation of `n` as a string. -/
def natReprStr (n : Nat) : String := ⟨natReprChars n⟩

/-- The candidate `` `${baseName}(${counter})${extension}` `` of the source. -/
def mkSuffixed (base ext : String) (k : Nat) : String :=
  base ++ "(" ++ natReprStr k ++ ")" ++ ext

/-- The `while` loop shared by `getUniqueFolderName` and `getUniqueFileName`:
starting at counter `k`, return the first candidate that no sibling bears
(case-insensitively).  The loop of the source is unbounded; a fuel of
`children.length` is enough for the result to be collision-free (each
exhausted counter is blocked by a distinct sibling). -/
def resolveLoop (children : List TreeNode) (base ext : String) :
    Nat → Nat → String
  | 0, k => mkSuffixed base ext k
  | fuel + 1, k =>
    if hasDupName children (mkSuffixed base ext k) then
      resolveLoop children base ext fuel (k + 1)
    else mkSuffixed base ext k

/-- The body of `getUniqueFolderName` on a given sibling list: return
`baseName` if unused, else append `(1)`, `(2)`, … until unused. -/
def getUniqueFolderNameFrom (children : List TreeNode) (baseName : String) :
    String :=
  if !hasDupName children baseName then baseName
  else resolveLoop children baseName "" children.length 1

/-- The split of a file name at its last dot, per the source:
`lastIndexOf('.')`, used only when the dot's index is positive;
the base name keeps everything before the dot, the extension keeps the dot. -/
def lastDotPosAux : List Char → Nat → Option Nat → Option Nat
  | [], _, acc => acc
  | c :: rest, i, acc =>
    lastDotPosAux rest (i + 1) (if c = '.' then some i else acc)

/-- Index of the last `'.'` of a string, if any. -/
def lastDotPos (s : String) : Option Nat := lastDotPosAux s.data 0 none

/-- `(baseName, extension)` as computed by `getUniqueFileName`. -/
def splitExt (s : String) : String × String :=
  match lastDotPos s with
  | some i => if 0 < i then (⟨s.data.take i⟩, ⟨s.data.drop i⟩) else (s, "")
  | none => (s, "")

/-- The body of `getUniqueFileName` on a given sibling list: identical loop,
but the counter is inserted before the extension. -/
def getUniqueFileNameFrom (children : List TreeNode) (fileName : String) :
    String :=
  if !hasDupName children fileName then fileName
  else
    resolveLoop children (splitExt fileName).1 (splitExt fileName).2
      children.length 1

/-- `treeStore.getUniqueFolderName(parentId, baseName)` over a given tree. -/
def getUniqueFolderName (nodes : List TreeNode) (parentId : Option String)
    (baseName : String) : String :=
  getUniqueFolderNameFrom (getChildrenOfParent nodes parentId) baseName

/-- `treeStore.getUniqueFileName(parentId, fileName)` over a given tree. -/
def getUniqueFileName (nodes : List TreeNode) (parentId : Option String)
    (fileName : String) : String :=
  getUniqueFileNameFrom (getChildrenOfParent nodes parentId) fileName

/- Total number of nodes of a forest, used to bound the parent-chain walk. -/
mutual

def count1 : TreeNode → Nat
  | .file _ _ => 1
  | .folder _ _ cs _ => 1 + countForest cs

def countForest : List TreeNode → Nat
  | [] => 0
  | n :: rest => count1 n + countForest rest

end

/- The ids of a node and of all its descendants, in preorder. -/
mutual

def ids1 : TreeNode → List String
  | .file i _ => [i]
  | .folder i _ cs _ => i :: idsF cs

def idsF : List TreeNode → List String
  | [] => []
  | n :: rest => ids1 n ++ idsF rest

end

/- Whether some folder of the forest bears the given id. -/
mutual

def hasFolder1 (pid : String) : TreeNode → Bool
  | .file _ _ => false
  | .folder i _ cs _ => i == pid || hasFolderF pid cs

def hasFolderF (pid : String) : List TreeNode → Bool
  | [] => false
  | n :: rest => hasFolder1 pid n || hasFolderF pid rest

end

/-- The cycle guard's upward walk: `while (checkNode) { if (checkNode.id ===
nodeId) return state; checkNode = findParent(state.nodes, checkNode.id); }`.
Returns `true` when the walk meets `nodeId`.  `fuel` bounds the number of
iterations; `moveNode` passes `countForest nodes + 1`, an upper bound on the
length of any parent chain. -/
def cycleWalk (nodes : List TreeNode) (nodeId : String) :
    Option TreeNode → Nat → Bool
  | none, _ => false
  | some _, 0 => false
  | some c, fuel + 1 =>
    if tid c = nodeId then true
    else cycleWalk nodes nodeId (findParentF (tid c) none nodes) fuel

/-- `treeStore.moveNode(nodeId, targetParentId)` of the source, on the node
list: look the node up; walk upward from the target declining cycles; decline
when the current parent already equals the target (with `parent?.id || null`
collapsing an empty id); otherwise remove the node and re-insert a copy under
the target (or append it at root when the target id is falsy). -/
def moveNode (nodes : List TreeNode) (nodeId : String)
    (targetParentId : Option String) : List TreeNode :=
  match findNodeF nodeId nodes with
  | none => nodes
  | some nodeCopy =>
    let cycle :=
      if jsTruthy targetParentId then
        cycleWalk nodes nodeId (findNodeF (targetParentId.getD "") nodes)
          (countForest nodes + 1)
      else false
    if cycle then nodes
    else if idOrNull (findParentF nodeId none nodes) = targetParentId then nodes
    else
      let newNodes := removeNodeF nodeId nodes
      if jsTruthy targetParentId then
        addNodeF (targetParentId.getD "") nodeCopy newNodes
      else newNodes ++ [nodeCopy]

/-- `treeStore.getParentFolderId(nodeId)` of the source: a folder resolves to
itself; a file resolves to `parent?.id || null`; a missing node to `null`. -/
def getParentFolderId (nodes : List TreeNode) (nodeId : String) :
    Option String :=
  match findNodeF nodeId nodes with
  | none => none
  | some n =>
    if isFolderB n then some (tid n)
    else idOrNull (findParentF nodeId none nodes)

/-- The store state: the tree plus the selection and in-flight flags. -/
structure TreeState where
  nodes : List TreeNode
  activeNodeId : Option String
  isLoading : Bool
deriving Repr

/-- `treeStore.delete(id)`: set the loading flag, await the persistence call;
on success remove the node locally and clear the selection if it was the
deleted node; on failure only clear the flag. -/
def deleteCmd (st : TreeState) (id : String) (success : Bool) : TreeState :=
  let pending : TreeState := { st with isLoading := true }
  if success then
    { pending with
      nodes := removeNodeF id pending.nodes
      activeNodeId :=
        if pending.activeNodeId = some id then none else pending.activeNodeId
      isLoading := false }
  else { pending with isLoading := false }

/-- `treeStore.addFile(name, parentId?)`: set the loading flag, await the
persistence call; on success insert a fresh file node (under the parent when
`parentId` is truthy, else appended at root) and clear the flag; on failure
only clear the flag. -/
def addFileCmd (st : TreeState) (name : String) (parentId : Option String)
    (newId : String) (success : Bool) : TreeState :=
  let pending : TreeState := { st with isLoading := true }
  if success then
    { pending with
      nodes :=
        if jsTruthy parentId then
          addNodeF (parentId.getD "") (.file newId name) pending.nodes
        else pending.nodes ++ [.file newId name]
      isLoading := false }
  else { pending with isLoading := false }

/-- `treeStore.addFolder(name, parentId?)`: as `addFile`, inserting a fresh
empty folder with `expanded = true`. -/
def addFolderCmd (st : TreeState) (name : String) (parentId : Option String)
    (newId : String) (success : Bool) : TreeState :=
  let pending : TreeState := { st with isLoading := true }
  if success then
    { pending with
      nodes :=
        if jsTruthy parentId then
          addNodeF (parentId.getD "") (.folder newId name [] true) pending.nodes
        else pending.nodes ++ [.folder newId name [] true]
      isLoading := false }
  else { pending with isLoading := false }

/-- Modelled from the spec: the body of `treeStore.checkMoveConflict` is not
among the repository's sources — only its call site in the tree item's drop
handler is.  Per the spec's conflict guard, it reports the moved node's name
when a sibling of the target scope already bears that name case-insensitively,
and nothing otherwise. -/
def checkMoveConflict (nodes : List TreeNode) (nodeId : String)
    (targetParentId : Option String) : Option String :=
  match findNodeF nodeId nodes with
  | none => none
  | some n =>
    if hasDupName (getChildrenOfParent nodes targetParentId) (tname n) then
      some (tname n)
    else none

/-- The internal-drag branch of the tree item's drop handler: return early
when the dragged id is falsy (empty) or the drop lands on the dragged node
itself; otherwise resolve the drop row to a target folder, consult
`checkMoveConflict` and stop with the reported name when it is truthy, else
move unless the target equals the dragged node.  Returns the new node list
together with the reported conflict, if any. -/
def handleDropInternal (nodes : List TreeNode) (draggedId : String)
    (rowId : String) : List TreeNode × Option String :=
  if draggedId = "" ∨ draggedId = rowId then (nodes, none)
  else
    let targetFolderId := getParentFolderId nodes rowId
    let conflictName := checkMoveConflict nodes draggedId targetFolderId
    if jsTruthy conflictName then (nodes, conflictName)
    else if some draggedId ≠ targetFolderId then
      (moveNode nodes draggedId targetFolderId, none)
    else (nodes, none)

/-- A sequence of `moveNode` commands applied in order. -/
def moveSeq (ms : List (String × Option String)) (nodes : List TreeNode) :
    List TreeNode :=
  ms.foldl (fun acc m => moveNode acc m.1 m.2) nodes

/- No node of the forest bears the same id as one of its own strict
descendants — acyclicity of the by-id parent relation. -/
mutual

def noSelfId1 : TreeNode → Bool
  | .file _ _ => true
  | .folder i _ cs _ => !(idsF cs).contains i && noSelfIdF cs

def noSelfIdF : List TreeNode → Bool
  | [] => true
  | n :: rest => noSelfId1 n && noSelfIdF rest

end

/-- Structural membership of a node in a forest (at any depth). -/
inductive InForest : TreeNode → List TreeNode → Prop where
  | head (n : TreeNode) (rest : List TreeNode) : InForest n (n :: rest)
  | tail {n : TreeNode} (m : TreeNode) {rest : List TreeNode} :
      InForest n rest → InForest n (m :: rest)
  | child {n : TreeNode} (i nm : String) {cs : List TreeNode} (e : Bool)
      (rest : List TreeNode) :
      InForest n cs → InForest n (.folder i nm cs e :: rest)

/-- One step of the cycle guard's upward walk: look up the parent of the
current node by id (`findParent(state.nodes, checkNode.id)`). -/
def parentStep (nodes : List TreeNode) : Option TreeNode → Option TreeNode
  | none => none
  | some c => findParentF (tid c) none nodes

/-- `k` steps of the upward walk. -/
def stepN (nodes : List TreeNode) : Nat → Option TreeNode → Option TreeNode
  | 0, o => o
  | k + 1, o => stepN nodes k (parentStep nodes o)

-- sanity checks: the embedding computes
example : findNodeF "b" [.folder "a" "A" [.file "b" "B"] false] =
    some (.file "b" "B") := rfl

example :
    moveNode [.folder "p" "P" [.file "x" "X"] false, .file "y" "Y"] "y"
      (some "p") =
    [.folder "p" "P" [.file "x" "X", .file "y" "Y"] true] := rfl

example : getUniqueFileNameFrom [.file "1" "a.txt"] "a.txt" = "a(1).txt" := rfl

/-! ## Basic lemmas about the embedding -/

theorem idsF_append : ∀ (a b : List TreeNode), idsF (a ++ b) = idsF a ++ idsF b := by
  intro a b
  induction a with
  | nil => simp [idsF]
  | cons n rest ih => simp [idsF, ih]

/- no folder of the forest bears `pid` → inserting under `pid` is the identity -/
mutual

theorem addElt_eq_of_no_folder (pid : String) (newNode : TreeNode) :
    ∀ n, hasFolder1 pid n = false → addElt pid newNode n = n
  | .file i nm, _ => rfl
  | .folder i nm cs e, h => by
    simp only [hasFolder1, Bool.or_eq_false_iff, beq_eq_false_iff_ne, ne_eq] at h
    simp [addElt, h.1, addNodeF_eq_of_no_folder pid newNode cs h.2]

theorem addNodeF_eq_of_no_folder (pid : String) (newNode : TreeNode) :
    ∀ ns, hasFolderF pid ns = false → addNodeF pid newNode ns = ns
  | [], _ => rfl
  | n :: rest, h => by
    simp only [hasFolderF, Bool.or_eq_false_iff] at h
    simp [addNodeF, addElt_eq_of_no_folder pid newNode n h.1,
      addNodeF_eq_of_no_folder pid newNode rest h.2]

end

/- a folder bearing `pid` contributes `pid` to the id list -/
mutual

theorem mem_ids1_of_hasFolder1 (pid : String) :
    ∀ n, hasFolder1 pid n = true → pid ∈ ids1 n
  | .folder i nm cs e, h => by
    simp only [hasFolder1, Bool.or_eq_true, beq_iff_eq] at h
    rcases h with h | h
    · simp [ids1, h]
    · simp [ids1, mem_idsF_of_hasFolderF pid cs h]

theorem mem_idsF_of_hasFolderF (pid : String) :
    ∀ ns, hasFolderF pid ns = true → pid ∈ idsF ns
  | n :: rest, h => by
    simp only [hasFolderF, Bool.or_eq_true] at h
    rcases h with h | h
    · simp [idsF, mem_ids1_of_hasFolder1 pid n h]
    · simp [idsF, mem_idsF_of_hasFolderF pid rest h]

end

/- `findNode` fails exactly on ids that occur nowhere -/
mutual

theorem findNode1_eq_none_iff (x : String) :
    ∀ n, findNode1 x n = none ↔ x ∉ ids1 n
  | .file i nm => by
    by_cases h : i = x
    · simp [findNode1, ids1, h]
    · simp [findNode1, ids1, h, eq_comm]
      exact fun hx => h hx.symm
  | .folder i nm cs e => by
    by_cases h : i = x
    · simp [findNode1, ids1, h]
    · simp [findNode1, ids1, h, findNodeF_eq_none_iff x cs, eq_comm]
      exact fun _ hx => h hx.symm

theorem findNodeF_eq_none_iff (x : String) :
    ∀ ns, findNodeF x ns = none ↔ x ∉ idsF ns
  | [] => by simp [findNodeF, idsF]
  | n :: rest => by
    simp only [findNodeF, idsF, List.mem_append]
    cases hn : findNode1 x n with
    | some found =>
      have hmem : x ∈ ids1 n := by
        by_contra hx
        rw [← findNode1_eq_none_iff x n] at hx
        simp [hn] at hx
      simp [hn, hmem]
    | none =>
      have hx := (findNode1_eq_none_iff x n).mp hn
      simp [hn, findNodeF_eq_none_iff x rest, hx]

end

/- a found node bears the id it was looked up by -/
mutual

theorem tid_of_findNode1 (x : String) :
    ∀ n m, findNode1 x n = some m → tid m = x
  | .file i nm, m, h => by
    by_cases hi : i = x
    · simp only [findNode1, if_pos hi] at h
      cases h; simp [tid, hi]
    · simp [findNode1, hi] at h
  | .folder i nm cs e, m, h => by
    by_cases hi : i = x
    · simp only [findNode1, if_pos hi] at h
      cases h; simp [tid, hi]
    · simp only [findNode1, if_neg hi] at h
      exact tid_of_findNodeF x cs m h

theorem tid_of_findNodeF (x : String) :
    ∀ ns m, findNodeF x ns = some m → tid m = x
  | n :: rest, m, h => by
    simp only [findNodeF] at h
    cases hn : findNode1 x n with
    | some found => rw [hn] at h; cases h; exact tid_of_findNode1 x n _ hn
    | none => rw [hn] at h; exact tid_of_findNodeF x rest m h

end

/- ids absent from a forest survive `removeNode` untouched -/
mutual

theorem removeElt_eq_of_not_mem (x : String) :
    ∀ n, x ∉ ids1 n → removeElt x n = n
  | .file i nm, _ => rfl
  | .folder i nm cs e, h => by
    simp only [ids1, List.mem_cons, not_or] at h
    simp [removeElt, removeNodeF_eq_of_not_mem x cs h.2]

theorem removeNodeF_eq_of_not_mem (x : String) :
    ∀ ns, x ∉ idsF ns → removeNodeF x ns = ns
  | [], _ => rfl
  | n :: rest, h => by
    simp only [idsF, List.mem_append, not_or] at h
    have htid : tid n ≠ x := by
      intro hx
      apply h.1
      cases n <;> simp [ids1, tid] at hx ⊢ <;> simp [hx]
    simp [removeNodeF, htid, removeElt_eq_of_not_mem x n h.1,
      removeNodeF_eq_of_not_mem x rest h.2]

end

/- after removal, no node bears the removed id -/
mutual

theorem not_mem_ids_removeElt (x : String) :
    ∀ n, tid n ≠ x → x ∉ ids1 (removeElt x n)
  | .file i nm, h => by
    simp only [tid] at h
    simp [removeElt, ids1]
    exact fun hx => h hx.symm
  | .folder i nm cs e, h => by
    simp only [tid] at h
    simp only [removeElt, ids1, List.mem_cons, not_or]
    refine ⟨fun hx => h hx.symm, not_mem_ids_removeNodeF x cs⟩

theorem not_mem_ids_removeNodeF (x : String) :
    ∀ ns, x ∉ idsF (removeNodeF x ns)
  | [] => by simp [removeNodeF, idsF]
  | n :: rest => by
    by_cases htid : tid n = x
    · simp [removeNodeF, htid, not_mem_ids_removeNodeF x rest]
    · simp only [removeNodeF, htid, if_neg, idsF, List.mem_append, not_or]
      exact ⟨not_mem_ids_removeElt x n htid, not_mem_ids_removeNodeF x rest⟩

end

/-! ## C1 — commit-after-confirm -/

/-- C1: for every state and every invocation of `addFile`, `addFolder` or
`delete` whose awaited persistence call rejects, the node tree after the
command equals the tree before it and the loading flag ends up cleared. -/
theorem c1_commit_after_confirm :
    ∀ (st : TreeState) (id name : String) (pid : Option String) (nid : String),
      (deleteCmd st id false).nodes = st.nodes ∧
      (deleteCmd st id false).isLoading = false ∧
      (addFileCmd st name pid nid false).nodes = st.nodes ∧
      (addFileCmd st name pid nid false).isLoading = false ∧
      (addFolderCmd st name pid nid false).nodes = st.nodes ∧
      (addFolderCmd st name pid nid false).isLoading = false := by
  intro st id name pid nid
  exact ⟨rfl, rfl, rfl, rfl, rfl, rfl⟩

/-! ## C9 — insertion under an invalid parent silently drops the node -/

/-- C9: when no folder of the tree bears `parentId` (the id is absent or
identifies a file), `addNodeToParent` returns the input tree unchanged: the
new node appears nowhere and no error is raised. -/
theorem c9_invalid_parent_drops_node :
    ∀ (nodes : List TreeNode) (parentId : String) (newNode : TreeNode),
      hasFolderF parentId nodes = false →
      addNodeF parentId newNode nodes = nodes :=
  fun nodes parentId newNode h => addNodeF_eq_of_no_folder parentId newNode nodes h

/-- Witness for C9: inserting under the id of a file (`"x"`) leaves the
concrete tree unchanged. -/
theorem c9_witness :
    addNodeF "x" (.file "n" "new.txt")
        [.folder "f" "F" [.file "x" "X"] false] =
      [.folder "f" "F" [.file "x" "X"] false] :=
  c9_invalid_parent_drops_node [.folder "f" "F" [.file "x" "X"] false] "x"
    (.file "n" "new.txt") rfl

/-! ## C7 — insert appends and auto-expands -/

/- after `addNodeToParent`, the looked-up folder carries the appended child
list and `expanded = true` -/
mutual

theorem findNode1_addElt (pid : String) (newNode : TreeNode) :
    ∀ n i nm cs e, findNode1 pid n = some (.folder i nm cs e) →
      findNode1 pid (addElt pid newNode n) =
        some (.folder i nm (cs ++ [newNode]) true)
  | .file j jn, i, nm, cs, e, h => by
    by_cases hj : j = pid <;> simp [findNode1, hj] at h
  | .folder j jn cs' e', i, nm, cs, e, h => by
    by_cases hj : j = pid
    · simp only [findNode1, if_pos hj, Option.some.injEq] at h
      injection h with h1 h2 h3 h4
      subst h1; subst h2; subst h3
      simp [addElt, if_pos hj, findNode1]
    · simp only [findNode1, if_neg hj] at h
      simp only [addElt, if_neg hj]
      simp only [findNode1, if_neg hj]
      exact findNodeF_addNodeF pid newNode cs' i nm cs e h

theorem findNodeF_addNodeF (pid : String) (newNode : TreeNode) :
    ∀ ns i nm cs e, findNodeF pid ns = some (.folder i nm cs e) →
      findNodeF pid (addNodeF pid newNode ns) =
        some (.folder i nm (cs ++ [newNode]) true)
  | [], i, nm, cs, e, h => by simp [findNodeF] at h
  | n :: rest, i, nm, cs, e, h => by
    simp only [findNodeF] at h
    cases hn : findNode1 pid n with
    | some found =>
      rw [hn] at h
      injection h with h'
      subst h'
      have hstep := findNode1_addElt pid newNode n i nm cs e hn
      simp [addNodeF, findNodeF, hstep]
    | none =>
      rw [hn] at h
      have hnone : findNode1 pid (addElt pid newNode n) = none := by
        have hx := (findNode1_eq_none_iff pid n).mp hn
        have hf : hasFolder1 pid n = false := by
          cases hhf : hasFolder1 pid n
          · rfl
          · exact absurd (mem_ids1_of_hasFolder1 pid n hhf) hx
        rw [addElt_eq_of_no_folder pid newNode n hf]
        exact hn
      simp [addNodeF, findNodeF, hnone,
        findNodeF_addNodeF pid newNode rest i nm cs e h]

end

/-- C7: inserting `newNode` under a folder of the tree that bears `parentId`
appends it as the last child of that folder and forces the folder's
`expanded` flag to `true`; inserting with no parent appends the new node as
the last element of the root sequence. -/
theorem c7_insert_appends_and_expands :
    (∀ (nodes : List TreeNode) (pid : String) (newNode : TreeNode)
        (i nm : String) (cs : List TreeNode) (e : Bool),
        findNodeF pid nodes = some (.folder i nm cs e) →
        findNodeF pid (addNodeF pid newNode nodes) =
          some (.folder i nm (cs ++ [newNode]) true)) ∧
    (∀ (st : TreeState) (name nid : String),
        (addFileCmd st name none nid true).nodes =
          st.nodes ++ [.file nid name] ∧
        (addFolderCmd st name none nid true).nodes =
          st.nodes ++ [.folder nid name [] true]) :=
  ⟨fun nodes pid newNode i nm cs e h =>
      findNodeF_addNodeF pid newNode nodes i nm cs e h,
    fun _ _ _ => ⟨rfl, rfl⟩⟩

/-- Witness for C7 at a concrete tree: the folder `"p"` receives the new file
as its last child and ends up expanded. -/
theorem c7_witness :
    findNodeF "p"
        (addNodeF "p" (.file "b" "B") [.folder "p" "P" [.file "a" "A"] false]) =
      some (.folder "p" "P" [.file "a" "A", .file "b" "B"] true) :=
  c7_insert_appends_and_expands.1 [.folder "p" "P" [.file "a" "A"] false] "p"
    (.file "b" "B") "p" "P" [.file "a" "A"] false rfl

/-! ## C4 — purity of `removeNode` -/

theorem removeInputAfter_eq_of_not_mem (x : String) :
    ∀ ns, x ∉ idsF ns → removeInputAfter x ns = ns := by
  intro ns
  induction ns with
  | nil => intro _; rfl
  | cons n rest ih =>
    intro hx
    simp only [idsF, List.mem_append, not_or] at hx
    simp only [removeInputAfter, List.map_cons]
    have hd : (if tid n = x then n else removeElt x n) = n := by
      by_cases ht : tid n = x
      · simp [ht]
      · simp [ht, removeElt_eq_of_not_mem x n hx.1]
    rw [hd]
    have htl := ih hx.2
    simp only [removeInputAfter] at htl
    rw [htl]

theorem removeInputAfter_eq_removeNodeF (x : String) :
    ∀ ns, (∀ n ∈ ns, tid n ≠ x) → removeInputAfter x ns = removeNodeF x ns := by
  intro ns
  induction ns with
  | nil => intro _; rfl
  | cons n rest ih =>
    intro h
    have hn := h n (List.mem_cons_self n rest)
    simp only [removeInputAfter, List.map_cons, removeNodeF, if_neg hn]
    have htl := ih (fun m hm => h m (List.mem_cons_of_mem n hm))
    simp only [removeInputAfter] at htl
    rw [htl]

/-- C4 counterexample: the claim states that `remove(tree, id)` leaves the
input tree value unmodified.  It does not: removing the nested file `"x"`
reassigns the folder's children in place, so after the call the input tree
value has lost the child. -/
theorem c4_counterexample :
    removeInputAfter "x" [.folder "f" "F" [.file "x" "X"] false] ≠
      [.folder "f" "F" [.file "x" "X"] false] := by
  simp [removeInputAfter, removeElt, removeNodeF, tid]

/-- C4 amended: `remove(tree, id)` returns a new top-level list in which no
node bears the removed id, and is a no-op (both on its result and on its
input) when the id is not found; but it is not copy-on-write — every kept
folder's children array is reassigned in place, so whenever the removed node
is not a top-level element the input tree afterwards equals the returned
tree rather than its old value. -/
theorem c4_remove_amended :
    ∀ (nodes : List TreeNode) (x : String),
      (x ∉ idsF nodes →
        removeNodeF x nodes = nodes ∧ removeInputAfter x nodes = nodes) ∧
      ((∀ n ∈ nodes, tid n ≠ x) →
        removeInputAfter x nodes = removeNodeF x nodes) ∧
      x ∉ idsF (removeNodeF x nodes) := by
  intro nodes x
  exact ⟨fun hx => ⟨removeNodeF_eq_of_not_mem x nodes hx,
      removeInputAfter_eq_of_not_mem x nodes hx⟩,
    removeInputAfter_eq_removeNodeF x nodes,
    not_mem_ids_removeNodeF x nodes⟩

/-- Witness for C4 (amended) at concrete trees. -/
theorem c4_witness :
    (removeNodeF "z" [.file "a" "A"] = [.file "a" "A"] ∧
      removeInputAfter "z" [.file "a" "A"] = [.file "a" "A"]) ∧
    removeInputAfter "x" [.folder "f" "F" [.file "x" "X"] false] =
      removeNodeF "x" [.folder "f" "F" [.file "x" "X"] false] :=
  ⟨(c4_remove_amended [.file "a" "A"] "z").1 (by decide),
    (c4_remove_amended [.folder "f" "F" [.file "x" "X"] false] "x").2.1
      (by decide)⟩

/-! ## Decimal representation: correctness and injectivity -/

theorem digitsRevAux_eq_digits :
    ∀ fuel n, n ≤ fuel → digitsRevAux fuel n = Nat.digits 10 n := by
  intro fuel
  induction fuel with
  | zero =>
    intro n hn
    have h0 : n = 0 := Nat.le_zero.mp hn
    subst h0
    simp [digitsRevAux]
  | succ fuel ih =>
    intro n hn
    by_cases h0 : n = 0
    · subst h0; simp [digitsRevAux]
    · have hpos : 0 < n := Nat.pos_of_ne_zero h0
      rw [Nat.digits_def' (by norm_num : (1:ℕ) < 10) hpos]
      simp only [digitsRevAux, if_neg h0]
      congr 1
      apply ih
      have : n / 10 < n := Nat.div_lt_self hpos (by norm_num)
      omega

theorem digitChar10_inj_lt (a b : ℕ) (ha : a < 10) (hb : b < 10)
    (h : digitChar10 a = digitChar10 b) : a = b := by
  have hfin : ∀ a' b' : Fin 10,
      digitChar10 a'.val = digitChar10 b'.val → a' = b' := by decide
  exact congrArg Fin.val (hfin ⟨a, ha⟩ ⟨b, hb⟩ h)

theorem toLower_digitChar10 (d : ℕ) (hd : d < 10) :
    Char.toLower (digitChar10 d) = digitChar10 d := by
  have hfin : ∀ d' : Fin 10,
      Char.toLower (digitChar10 d'.val) = digitChar10 d'.val := by decide
  exact hfin ⟨d, hd⟩

theorem map_digitChar10_inj :
    ∀ l1 l2 : List ℕ, (∀ d ∈ l1, d < 10) → (∀ d ∈ l2, d < 10) →
      l1.map digitChar10 = l2.map digitChar10 → l1 = l2 := by
  intro l1
  induction l1 with
  | nil =>
    intro l2 _ _ h
    cases l2 with
    | nil => rfl
    | cons d rest => simp at h
  | cons d rest ih =>
    intro l2 h1 h2 h
    cases l2 with
    | nil => simp at h
    | cons d' rest' =>
      simp only [List.map_cons, List.cons.injEq] at h
      have hd : d = d' :=
        digitChar10_inj_lt d d' (h1 d (by simp)) (h2 d' (by simp)) h.1
      rw [hd, ih rest' (fun y hy => h1 y (by simp [hy]))
        (fun y hy => h2 y (by simp [hy])) h.2]

theorem natReprChars_eq_digits (n : ℕ) (hn : 1 ≤ n) :
    natReprChars n = ((Nat.digits 10 n).map digitChar10).reverse := by
  have h0 : n ≠ 0 := by omega
  simp only [natReprChars, if_neg h0, digitsRevAux_eq_digits n n le_rfl]

theorem mem_natReprChars (n : ℕ) :
    ∀ c ∈ natReprChars n, ∃ d, d < 10 ∧ c = digitChar10 d := by
  intro c hc
  by_cases h0 : n = 0
  · subst h0
    simp [natReprChars] at hc
    exact ⟨0, by norm_num, by rw [hc]; decide⟩
  · rw [natReprChars_eq_digits n (Nat.one_le_iff_ne_zero.mpr h0)] at hc
    rw [List.mem_reverse, List.mem_map] at hc
    obtain ⟨d, hd, hdc⟩ := hc
    exact ⟨d, Nat.digits_lt_base (by norm_num) hd, hdc.symm⟩

theorem map_toLower_natReprChars (n : ℕ) :
    (natReprChars n).map Char.toLower = natReprChars n := by
  have h : ∀ c ∈ natReprChars n, Char.toLower c = id c := by
    intro c hc
    obtain ⟨d, hd, rfl⟩ := mem_natReprChars n c hc
    exact toLower_digitChar10 d hd
  rw [List.map_congr_left h, List.map_id]

theorem natReprChars_inj (m n : ℕ) (hm : 1 ≤ m) (hn : 1 ≤ n)
    (h : natReprChars m = natReprChars n) : m = n := by
  rw [natReprChars_eq_digits m hm, natReprChars_eq_digits n hn] at h
  have h' := List.reverse_injective h
  have hdigits : Nat.digits 10 m = Nat.digits 10 n :=
    map_digitChar10_inj _ _
      (fun d hd => Nat.digits_lt_base (by norm_num) hd)
      (fun d hd => Nat.digits_lt_base (by norm_num) hd) h'
  calc m = Nat.ofDigits 10 (Nat.digits 10 m) := (Nat.ofDigits_digits 10 m).symm
    _ = Nat.ofDigits 10 (Nat.digits 10 n) := by rw [hdigits]
    _ = n := Nat.ofDigits_digits 10 n

theorem data_mkSuffixed (base ext : String) (k : ℕ) :
    (mkSuffixed base ext k).data =
      base.data ++ ('(' :: (natReprChars k ++ (')' :: ext.data))) := by
  simp [mkSuffixed, String.data_append, natReprStr]

theorem lowerStr_mkSuffixed_inj (base ext : String) (j k : ℕ)
    (hj : 1 ≤ j) (hk : 1 ≤ k)
    (h : lowerStr (mkSuffixed base ext j) = lowerStr (mkSuffixed base ext k)) :
    j = k := by
  unfold lowerStr at h
  injection h with hdata
  rw [data_mkSuffixed, data_mkSuffixed] at hdata
  have hpar : Char.toLower '(' = '(' := by decide
  have hpar' : Char.toLower ')' = ')' := by decide
  simp only [List.map_append, List.map_cons, hpar, hpar',
    map_toLower_natReprChars] at hdata
  rw [List.append_cancel_left_eq] at hdata
  simp only [List.cons.injEq, true_and] at hdata
  rw [List.append_cancel_right_eq] at hdata
  exact natReprChars_inj j k hj hk hdata

/-! ## The collision-resolution loop -/

theorem resolveLoop_eq_mkSuffixed (children : List TreeNode) (b e : String) :
    ∀ fuel k, ∃ j, k ≤ j ∧
      resolveLoop children b e fuel k = mkSuffixed b e j := by
  intro fuel
  induction fuel with
  | zero => intro k; exact ⟨k, le_rfl, rfl⟩
  | succ fuel ih =>
    intro k
    cases hdup : hasDupName children (mkSuffixed b e k) with
    | false => exact ⟨k, le_rfl, by simp [resolveLoop, hdup]⟩
    | true =>
      obtain ⟨j, hj, hres⟩ := ih (k + 1)
      exact ⟨j, by omega, by simp only [resolveLoop, hdup, if_true]; exact hres⟩

theorem resolveLoop_not_dup (children : List TreeNode) (b e : String) :
    ∀ fuel k,
      (∃ j, k ≤ j ∧ j ≤ k + fuel ∧
        hasDupName children (mkSuffixed b e j) = false) →
      hasDupName children (resolveLoop children b e fuel k) = false := by
  intro fuel
  induction fuel with
  | zero =>
    intro k h
    obtain ⟨j, h1, h2, h3⟩ := h
    have hjk : j = k := by omega
    subst hjk
    simpa [resolveLoop] using h3
  | succ fuel ih =>
    intro k h
    obtain ⟨j, h1, h2, h3⟩ := h
    cases hdup : hasDupName children (mkSuffixed b e k) with
    | false => simp [resolveLoop, hdup]
    | true =>
      have hjk : j ≠ k := by
        intro hjk
        subst hjk
        rw [h3] at hdup
        cases hdup
      simp only [resolveLoop, hdup, if_true]
      exact ih (k + 1) ⟨j, by omega, by omega, h3⟩

theorem exists_free_suffix (children : List TreeNode) (b e : String) :
    ∃ j, 1 ≤ j ∧ j ≤ children.length + 1 ∧
      hasDupName children (mkSuffixed b e j) = false := by
  by_contra hcon
  push_neg at hcon
  have hall : ∀ j ∈ Finset.Icc 1 (children.length + 1),
      lowerStr (mkSuffixed b e j) ∈
        (children.map (fun c => lowerStr (tname c))).toFinset := by
    intro j hj
    simp only [Finset.mem_Icc] at hj
    have hdup : hasDupName children (mkSuffixed b e j) = true := by
      have hne := hcon j hj.1 hj.2
      cases h : hasDupName children (mkSuffixed b e j)
      · exact absurd h hne
      · rfl
    simp only [hasDupName, List.any_eq_true, beq_iff_eq] at hdup
    obtain ⟨c, hc, hceq⟩ := hdup
    rw [List.mem_toFinset]
    exact List.mem_map.mpr ⟨c, hc, hceq⟩
  have hcard : (children.map (fun c => lowerStr (tname c))).toFinset.card <
      (Finset.Icc 1 (children.length + 1)).card := by
    have h1 : (children.map (fun c => lowerStr (tname c))).toFinset.card ≤
        children.length := by
      calc (children.map (fun c => lowerStr (tname c))).toFinset.card
          ≤ (children.map (fun c => lowerStr (tname c))).length :=
            List.toFinset_card_le _
        _ = children.length := List.length_map _ _
    rw [Nat.card_Icc]
    omega
  obtain ⟨x, hx, y, hy, hxy, hfxy⟩ :=
    Finset.exists_ne_map_eq_of_card_lt_of_maps_to hcard hall
  simp only [Finset.mem_Icc] at hx hy
  exact hxy (lowerStr_mkSuffixed_inj b e x y hx.1 hy.1 hfxy)

theorem resolveLoop_fresh (children : List TreeNode) (b e : String) :
    hasDupName children (resolveLoop children b e children.length 1) = false := by
  obtain ⟨j, h1, h2, h3⟩ := exists_free_suffix children b e
  exact resolveLoop_not_dup children b e children.length 1 ⟨j, h1, by omega, h3⟩

theorem hasDupName_eq_false_iff (children : List TreeNode) (s : String) :
    hasDupName children s = false ↔
      ∀ c ∈ children, lowerStr (tname c) ≠ lowerStr s := by
  simp [hasDupName, List.any_eq_false]

theorem getUniqueFileNameFrom_fresh (children : List TreeNode) (x : String) :
    hasDupName children (getUniqueFileNameFrom children x) = false := by
  cases hdup : hasDupName children x with
  | false => simp [getUniqueFileNameFrom, hdup]
  | true =>
    simp only [getUniqueFileNameFrom, hdup, Bool.not_true, Bool.false_eq_true,
      if_false]
    exact resolveLoop_fresh children _ _

theorem getUniqueFolderNameFrom_fresh (children : List TreeNode) (x : String) :
    hasDupName children (getUniqueFolderNameFrom children x) = false := by
  cases hdup : hasDupName children x with
  | false => simp [getUniqueFolderNameFrom, hdup]
  | true =>
    simp only [getUniqueFolderNameFrom, hdup, Bool.not_true, Bool.false_eq_true,
      if_false]
    exact resolveLoop_fresh children _ _

/-! ## C6 — resolver idempotence and non-collision -/

/-- C6: for every sibling set and candidate name, (i) a name that does not
already occur among the siblings case-insensitively is returned unchanged by
both resolvers; (ii) the returned name never equals any sibling's name
case-insensitively; hence each resolver applied to its own output with the
same siblings is a fixed point. -/
theorem c6_resolver_idempotent_and_fresh :
    ∀ (children : List TreeNode) (x : String),
      (hasDupName children x = false →
        getUniqueFileNameFrom children x = x ∧
        getUniqueFolderNameFrom children x = x) ∧
      (∀ c ∈ children,
        lowerStr (tname c) ≠ lowerStr (getUniqueFileNameFrom children x)) ∧
      (∀ c ∈ children,
        lowerStr (tname c) ≠ lowerStr (getUniqueFolderNameFrom children x)) ∧
      getUniqueFileNameFrom children (getUniqueFileNameFrom children x) =
        getUniqueFileNameFrom children x ∧
      getUniqueFolderNameFrom children (getUniqueFolderNameFrom children x) =
        getUniqueFolderNameFrom children x := by
  intro children x
  refine ⟨fun h => ⟨by simp [getUniqueFileNameFrom, h],
      by simp [getUniqueFolderNameFrom, h]⟩, ?_, ?_, ?_, ?_⟩
  · exact (hasDupName_eq_false_iff children _).mp
      (getUniqueFileNameFrom_fresh children x)
  · exact (hasDupName_eq_false_iff children _).mp
      (getUniqueFolderNameFrom_fresh children x)
  · have hfresh := getUniqueFileNameFrom_fresh children x
    set y := getUniqueFileNameFrom children x with hy
    simp [getUniqueFileNameFrom, hfresh]
  · have hfresh := getUniqueFolderNameFrom_fresh children x
    set y := getUniqueFolderNameFrom children x with hy
    simp [getUniqueFolderNameFrom, hfresh]

/-- Witness for C6 at concrete inputs: a unique name is returned unchanged,
and on a collision the resolver's output avoids all sibling names. -/
theorem c6_witness :
    getUniqueFileNameFrom [.file "1" "b.txt"] "a.txt" = "a.txt" ∧
    (∀ c ∈ [TreeNode.file "1" "a.txt"],
      lowerStr (tname c) ≠
        lowerStr (getUniqueFileNameFrom [.file "1" "a.txt"] "a.txt")) :=
  ⟨((c6_resolver_idempotent_and_fresh [.file "1" "b.txt"] "a.txt").1 rfl).1,
    (c6_resolver_idempotent_and_fresh [.file "1" "a.txt"] "a.txt").2.1⟩

/-! ## C5 — extension-aware suffixing -/

/-- C5: on a collision `getUniqueFileName` returns the base name with a
counter `(k)`, `k ≥ 1`, inserted before the extension, where the extension
starts at the last `'.'` provided that dot is not the first character;
names with no dot (or only a leading dot) get an empty extension, so the
counter lands at the end.  Concretely, sibling `"a.txt"` forces `"a.txt"` to
`"a(1).txt"` and sibling `"a"` forces `"a"` to `"a(1)"`. -/
theorem c5_extension_aware_suffixing :
    (∀ (children : List TreeNode) (x : String),
        hasDupName children x = true →
        ∃ k, 1 ≤ k ∧
          getUniqueFileNameFrom children x =
            mkSuffixed (splitExt x).1 (splitExt x).2 k) ∧
    (∀ s : String, lastDotPos s = none → splitExt s = (s, "")) ∧
    (∀ s : String, lastDotPos s = some 0 → splitExt s = (s, "")) ∧
    (∀ (s : String) (i : ℕ), lastDotPos s = some i → 0 < i →
        splitExt s = (⟨s.data.take i⟩, ⟨s.data.drop i⟩)) ∧
    getUniqueFileNameFrom [.file "1" "a.txt"] "a.txt" = "a(1).txt" ∧
    getUniqueFileNameFrom [.file "1" "a"] "a" = "a(1)" := by
  refine ⟨?_, ?_, ?_, ?_, rfl, rfl⟩
  · intro children x h
    obtain ⟨j, hj, hres⟩ :=
      resolveLoop_eq_mkSuffixed children (splitExt x).1 (splitExt x).2
        children.length 1
    refine ⟨j, hj, ?_⟩
    simp only [getUniqueFileNameFrom, h, Bool.not_true, Bool.false_eq_true,
      if_false]
    exact hres
  · intro s h; simp [splitExt, h]
  · intro s h; simp [splitExt, h]
  · intro s i h hi; simp [splitExt, h, hi]

/-- Witness for C5 at the concrete collision of the claim. -/
theorem c5_witness :
    ∃ k, 1 ≤ k ∧
      getUniqueFileNameFrom [.file "1" "a.txt"] "a.txt" =
        mkSuffixed (splitExt "a.txt").1 (splitExt "a.txt").2 k :=
  c5_extension_aware_suffixing.1 [.file "1" "a.txt"] "a.txt" rfl

/-! ## C10 — drop-target resolution (`getParentFolderId`) -/

/-- C10 counterexample: the claim states that for a file with a folder
parent, `getParentFolderId` returns the containing folder's id.  When that
id is the empty string the code's `parent?.id || null` collapses it to
`null` instead. -/
theorem c10_counterexample :
    findNodeF "x" [.folder "" "p" [.file "x" "X"] false] =
        some (.file "x" "X") ∧
    findParentF "x" none [.folder "" "p" [.file "x" "X"] false] =
        some (.folder "" "p" [.file "x" "X"] false) ∧
    getParentFolderId [.folder "" "p" [.file "x" "X"] false] "x" ≠
      some "" := by
  refine ⟨rfl, rfl, ?_⟩
  have h : getParentFolderId [.folder "" "p" [.file "x" "X"] false] "x" =
      none := rfl
  rw [h]
  simp

/-- C10 amended: `getParentFolderId` returns the node's own id when the node
is a folder, the containing folder's id when the node is a file with a folder
parent — except that an empty parent id is collapsed to `null` by
`parent?.id || null` — and `null` when the node is absent or a root-level
file. -/
theorem c10_parent_folder_amended :
    ∀ (nodes : List TreeNode) (nodeId : String),
      (∀ n, findNodeF nodeId nodes = some n → isFolderB n = true →
        getParentFolderId nodes nodeId = some nodeId) ∧
      (∀ n p, findNodeF nodeId nodes = some n → isFolderB n = false →
        findParentF nodeId none nodes = some p → tid p ≠ "" →
        getParentFolderId nodes nodeId = some (tid p)) ∧
      (findNodeF nodeId nodes = none → getParentFolderId nodes nodeId = none) ∧
      (∀ n, findNodeF nodeId nodes = some n → isFolderB n = false →
        findParentF nodeId none nodes = none →
        getParentFolderId nodes nodeId = none) ∧
      (∀ n p, findNodeF nodeId nodes = some n → isFolderB n = false →
        findParentF nodeId none nodes = some p → tid p = "" →
        getParentFolderId nodes nodeId = none) := by
  intro nodes nodeId
  refine ⟨?_, ?_, ?_, ?_, ?_⟩
  · intro n hfind hfold
    have htid := tid_of_findNodeF nodeId nodes n hfind
    simp [getParentFolderId, hfind, hfold, htid]
  · intro n p hfind hfold hpar hne
    simp [getParentFolderId, hfind, hfold, idOrNull, hpar, hne]
  · intro hfind
    simp [getParentFolderId, hfind]
  · intro n hfind hfold hpar
    simp [getParentFolderId, hfind, hfold, idOrNull, hpar]
  · intro n p hfind hfold hpar hemp
    simp [getParentFolderId, hfind, hfold, idOrNull, hpar, hemp]

/-- Witness for C10 (amended) at concrete trees: a folder row resolves to the
folder itself, a nested file to its containing folder. -/
theorem c10_witness :
    getParentFolderId [.folder "f" "F" [] false] "f" = some "f" ∧
    getParentFolderId [.folder "p" "P" [.file "x" "X"] false] "x" =
      some "p" :=
  ⟨(c10_parent_folder_amended [.folder "f" "F" [] false] "f").1
      (.folder "f" "F" [] false) rfl rfl,
    (c10_parent_folder_amended [.folder "p" "P" [.file "x" "X"] false] "x").2.1
      (.file "x" "X") (.folder "p" "P" [.file "x" "X"] false) rfl rfl rfl
      (by decide)⟩

/-! ## C8 — no-op guard of `moveNode` -/

/-- C8 counterexample: the claim states that whenever the moved node's
current parent equals `targetParentId` the state is returned unchanged.  With
a parent folder whose id is the empty string and `targetParentId = ""`, the
code's `currentParent?.id || null` collapses the parent to `null`, the no-op
guard misses, and the node is moved to the root level. -/
theorem c8_counterexample :
    findParentF "x" none
        [.folder "" "p" [.file "x" "X", .file "y" "Y"] false] =
      some (.folder "" "p" [.file "x" "X", .file "y" "Y"] false) ∧
    moveNode [.folder "" "p" [.file "x" "X", .file "y" "Y"] false] "x"
        (some "") ≠
      [.folder "" "p" [.file "x" "X", .file "y" "Y"] false] := by
  refine ⟨rfl, ?_⟩
  have hres : moveNode
      [.folder "" "p" [.file "x" "X", .file "y" "Y"] false] "x" (some "") =
      [.folder "" "p" [.file "y" "Y"] false, .file "x" "X"] := rfl
  rw [hres]
  simp

/-- C8 amended: whenever the moved node exists and its current parent's id —
collapsed to `null` when the parent is absent or bears the empty id —
already equals `targetParentId`, `moveNode` returns the state unchanged. -/
theorem c8_noop_guard_amended :
    ∀ (nodes : List TreeNode) (nodeId : String) (tgt : Option String)
      (n : TreeNode),
      findNodeF nodeId nodes = some n →
      idOrNull (findParentF nodeId none nodes) = tgt →
      moveNode nodes nodeId tgt = nodes := by
  intro nodes nodeId tgt n hfind hpar
  simp only [moveNode, hfind]
  by_cases hc : (if jsTruthy tgt then
      cycleWalk nodes nodeId (findNodeF (tgt.getD "") nodes)
        (countForest nodes + 1) else false) = true
  · simp [hc]
  · simp [hc, hpar]

/-- Witness for C8 (amended), and the claim's own concrete no-op scenario:
given `root/folder1(child: fileX)`, `moveNode(fileX, folder1.id)` leaves the
tree unchanged. -/
theorem c8_witness :
    moveNode [.folder "f1" "folder1" [.file "x" "fileX"] true] "x"
        (some "f1") =
      [.folder "f1" "folder1" [.file "x" "fileX"] true] :=
  c8_noop_guard_amended [.folder "f1" "folder1" [.file "x" "fileX"] true] "x"
    (some "f1") (.file "x" "fileX") rfl rfl

/-! ## C3 — conflict guard of the drop handler -/

/-- C3 counterexample: the claim states that whenever some node of the target
scope bears the moved node's name case-insensitively, the move is reported as
a naming conflict and the node is not relocated.  With empty names this fails:
dragging the root file `"b"` (named `""`) onto folder `"p"`, whose child is
also named `""`, relocates the node into the conflicting scope with nothing
reported, because the reported empty name is falsy at `if (conflictName)`;
and an empty *dragged id* makes the handler return early, so a conflict is
never reported there either. -/
theorem c3_counterexample :
    hasDupName
        (getChildrenOfParent [.folder "p" "P" [.file "a" ""] false, .file "b" ""]
          (getParentFolderId [.folder "p" "P" [.file "a" ""] false, .file "b" ""]
            "p"))
        (tname (.file "b" "")) = true ∧
    handleDropInternal [.folder "p" "P" [.file "a" ""] false, .file "b" ""]
        "b" "p" =
      ([.folder "p" "P" [.file "a" "", .file "b" ""] true], none) ∧
    hasDupName
        (getChildrenOfParent
          [.folder "p" "P" [.file "a" "x"] false, .file "" "x"]
          (getParentFolderId
            [.folder "p" "P" [.file "a" "x"] false, .file "" "x"] "p"))
        (tname (.file "" "x")) = true ∧
    handleDropInternal [.folder "p" "P" [.file "a" "x"] false, .file "" "x"]
        "" "p" =
      ([.folder "p" "P" [.file "a" "x"] false, .file "" "x"], none) :=
  ⟨rfl, rfl, rfl, rfl⟩

/-- C3 amended: when the dragged node exists, its id and name are non-empty
(an empty dragged id is dropped by the handler's early return, and an empty
reported name is falsy at the call site's `if (conflictName)` test), and some
node of the target scope (as resolved from the drop row by
`getParentFolderId`) already bears that name case-insensitively, the drop
handler reports the naming conflict and returns the tree unchanged — the node
is not relocated into the conflicting scope. -/
theorem c3_conflict_guard :
    ∀ (nodes : List TreeNode) (draggedId rowId : String) (n : TreeNode),
      draggedId ≠ "" →
      draggedId ≠ rowId →
      findNodeF draggedId nodes = some n →
      tname n ≠ "" →
      hasDupName (getChildrenOfParent nodes (getParentFolderId nodes rowId))
        (tname n) = true →
      handleDropInternal nodes draggedId rowId = (nodes, some (tname n)) := by
  intro nodes draggedId rowId n hdrag hne hfind hname hdup
  have hguard : ¬ (draggedId = "" ∨ draggedId = rowId) := by
    simp [hdrag, hne]
  simp only [handleDropInternal, if_neg hguard]
  simp only [checkMoveConflict, hfind, hdup, if_pos]
  have htruthy : jsTruthy (some (tname n)) = true := by
    simp [jsTruthy, hname]
  simp [htruthy]

/-- Witness for C3 at a concrete tree: dragging the root file `"b"` (named
`"x"`) onto folder `"p"`, which already contains a child named `"x"`,
reports the conflict and leaves the tree unchanged. -/
theorem c3_witness :
    handleDropInternal
        [.folder "p" "P" [.file "a" "x"] false, .file "b" "x"] "b" "p" =
      ([.folder "p" "P" [.file "a" "x"] false, .file "b" "x"], some "x") :=
  c3_conflict_guard [.folder "p" "P" [.file "a" "x"] false, .file "b" "x"]
    "b" "p" (.file "b" "x") (by decide) (by decide) rfl (by decide) rfl

/-! ## C2 — structural lemmas on membership, counts and ids -/

theorem count1_pos : ∀ n : TreeNode, 1 ≤ count1 n := by
  intro n
  cases n with
  | file i nm => simp [count1]
  | folder i nm cs e => simp [count1]

theorem count1_le_of_mem : ∀ (ns : List TreeNode) (n : TreeNode), n ∈ ns →
    count1 n ≤ countForest ns := by
  intro ns
  induction ns with
  | nil => intro n h; cases h
  | cons m rest ih =>
    intro n h
    rcases List.mem_cons.mp h with h | h
    · subst h; simp [countForest]
    · have := ih n h
      simp [countForest]
      omega

theorem count1_le_of_InForest :
    ∀ {n : TreeNode} {ns : List TreeNode}, InForest n ns →
      count1 n ≤ countForest ns
  | _, _, .head n rest => by simp [countForest]
  | _, _, .tail m h => by
    have := count1_le_of_InForest h
    simp [countForest]
    omega
  | _, _, .child i nm e rest h => by
    have := count1_le_of_InForest h
    simp only [countForest, count1]
    omega

theorem tid_mem_ids1 : ∀ n : TreeNode, tid n ∈ ids1 n := by
  intro n
  cases n with
  | file i nm => simp [tid, ids1]
  | folder i nm cs e => simp [tid, ids1]

theorem tid_mem_idsF : ∀ (ns : List TreeNode) (n : TreeNode), n ∈ ns →
    tid n ∈ idsF ns := by
  intro ns
  induction ns with
  | nil => intro n h; cases h
  | cons m rest ih =>
    intro n h
    rcases List.mem_cons.mp h with h | h
    · subst h; simp [idsF]; left; exact tid_mem_ids1 n
    · simp [idsF]; right; exact ih n h

theorem ids1_subset_of_InForest :
    ∀ {n : TreeNode} {ns : List TreeNode}, InForest n ns →
      ∀ y ∈ ids1 n, y ∈ idsF ns
  | _, _, .head n rest => fun y hy => by
    simp [idsF]
    left
    exact hy
  | _, _, .tail m h => fun y hy => by
    simp [idsF]
    right
    exact ids1_subset_of_InForest h y hy
  | _, _, .child i nm e rest h => fun y hy => by
    simp [idsF, ids1]
    right; left
    exact ids1_subset_of_InForest h y hy

theorem InForest_of_mem : ∀ (ns : List TreeNode) (n : TreeNode), n ∈ ns →
    InForest n ns := by
  intro ns
  induction ns with
  | nil => intro n h; cases h
  | cons m rest ih =>
    intro n h
    rcases List.mem_cons.mp h with h | h
    · subst h; exact InForest.head n rest
    · exact InForest.tail m (ih n h)

theorem InForest_trans :
    ∀ {d : TreeNode} {cs : List TreeNode} {i nm : String} {e : Bool}
      {ns : List TreeNode},
      InForest d cs → InForest (.folder i nm cs e) ns → InForest d ns
  | _, _, _, _, _, _, hd, .head _ rest => .child _ _ _ rest hd
  | _, _, _, _, _, _, hd, .tail m hn => .tail m (InForest_trans hd hn)
  | _, _, _, _, _, _, hd, .child j jn e' rest hn =>
    .child j jn e' rest (InForest_trans hd hn)

theorem InForest_decompose :
    ∀ {d : TreeNode} {cs : List TreeNode}, InForest d cs →
      d ∈ cs ∨ ∃ g ∈ cs, InForest d (getChildren g)
  | _, _, .head n rest => Or.inl (List.mem_cons_self n rest)
  | _, _, .tail m h =>
    match InForest_decompose h with
    | .inl h' => .inl (List.mem_cons_of_mem m h')
    | .inr ⟨g, hg, hgd⟩ => .inr ⟨g, List.mem_cons_of_mem m hg, hgd⟩
  | _, _, .child i nm e rest hd =>
    .inr ⟨.folder i nm _ e, List.mem_cons_self _ rest, hd⟩

theorem nodup_ids1_of_InForest :
    ∀ {n : TreeNode} {ns : List TreeNode}, InForest n ns → (idsF ns).Nodup →
      (ids1 n).Nodup
  | _, _, .head n rest, hnd => by
    rw [idsF, List.nodup_append] at hnd
    exact hnd.1
  | _, _, .tail m h, hnd => by
    rw [idsF, List.nodup_append] at hnd
    exact nodup_ids1_of_InForest h hnd.2.1
  | _, _, .child i nm e rest h, hnd => by
    rw [idsF, List.nodup_append, ids1, List.nodup_cons] at hnd
    exact nodup_ids1_of_InForest h hnd.1.2

theorem findNode1_self : ∀ d : TreeNode, findNode1 (tid d) d = some d := by
  intro d
  cases d with
  | file i nm => simp [findNode1, tid]
  | folder i nm cs e => simp [findNode1, tid]

theorem findNodeF_first :
    ∀ {d : TreeNode} {ns : List TreeNode}, InForest d ns → (idsF ns).Nodup →
      findNodeF (tid d) ns = some d
  | _, _, .head d rest, _ => by simp [findNodeF, findNode1_self]
  | d, _, .tail m hmem, hnd => by
    rw [idsF, List.nodup_append] at hnd
    have hno : findNode1 (tid d) m = none := by
      rw [findNode1_eq_none_iff]
      intro hin
      exact hnd.2.2 hin
        (ids1_subset_of_InForest hmem (tid d) (tid_mem_ids1 d))
    simp [findNodeF, hno, findNodeF_first hmem hnd.2.1]
  | d, _, .child i nm e rest hmem, hnd => by
    rw [idsF, List.nodup_append, ids1, List.nodup_cons] at hnd
    have hdin := ids1_subset_of_InForest hmem (tid d) (tid_mem_ids1 d)
    have hne : i ≠ tid d := fun h => hnd.1.1 (by rw [h]; exact hdin)
    simp only [findNodeF, findNode1, if_neg hne]
    rw [findNodeF_first hmem hnd.1.2]

/-! ## C2 — correctness of `findParent` under unique ids -/

/- `findParent` misses ids that occur nowhere -/
mutual

theorem findParent1_eq_none (x : String) (par : Option TreeNode) :
    ∀ n, x ∉ ids1 n → findParent1 x par n = none
  | .file i nm, h => by
    simp only [ids1, List.mem_singleton] at h
    have hne : ¬ i = x := fun hh => h hh.symm
    simp [findParent1, hne]
  | .folder i nm cs e, h => by
    simp only [ids1, List.mem_cons, not_or] at h
    have hne : ¬ i = x := fun hh => h.1 hh.symm
    have hrec := findParentF_eq_none x (some (.folder i nm cs e)) cs h.2
    have hany : cs.any (fun c => tid c == x) = false := by
      rw [List.any_eq_false]
      intro c hc
      simp only [beq_iff_eq]
      intro heq
      exact h.2 (heq ▸ tid_mem_idsF cs c hc)
    simp [findParent1, hne, hrec, hany]

theorem findParentF_eq_none (x : String) (par : Option TreeNode) :
    ∀ ns, x ∉ idsF ns → findParentF x par ns = none
  | [], _ => rfl
  | n :: rest, h => by
    simp only [idsF, List.mem_append, not_or] at h
    simp [findParentF, findParent1_eq_none x par n h.1,
      findParentF_eq_none x par rest h.2]

end

/- when the sought id belongs to a top-level element of the scanned list,
`findParent` returns the parent it was handed -/
theorem findParentF_top_hit (x : String) :
    ∀ (cs : List TreeNode) (par : Option TreeNode), (idsF cs).Nodup →
      (∃ c ∈ cs, tid c = x) → findParentF x par cs = par := by
  intro cs
  induction cs with
  | nil =>
    rintro par _ ⟨c, hc, _⟩
    cases hc
  | cons m rest ih =>
    rintro par hnd ⟨c, hc, hcx⟩
    rw [idsF, List.nodup_append] at hnd
    rcases List.mem_cons.mp hc with rfl | hc'
    · have hhit : findParent1 x par c = some par := by
        cases c with
        | file i nm =>
          simp only [tid] at hcx
          simp [findParent1, hcx]
        | folder i nm cs2 e2 =>
          simp only [tid] at hcx
          simp [findParent1, hcx]
      simp [findParentF, hhit]
    · have hxr : x ∈ idsF rest := hcx ▸ tid_mem_idsF rest c hc'
      have hxm : x ∉ ids1 m := fun hin => hnd.2.2 hin hxr
      simp [findParentF, findParent1_eq_none x par m hxm,
        ih par hnd.2.1 ⟨c, hc', hcx⟩]

theorem tid_mem_ids1_folder {i nm : String} {cs : List TreeNode} {e : Bool}
    {c : TreeNode} (hc : c ∈ cs) : tid c ∈ ids1 (.folder i nm cs e) := by
  rw [ids1]
  exact List.mem_cons_of_mem i (tid_mem_idsF cs c hc)

/- under unique ids, `findParent` resolves a direct child of a folder of the
tree to that folder, whatever initial parent it was handed -/
theorem findParentF_parent :
    ∀ {i nm : String} {cs : List TreeNode} {e : Bool} {ns : List TreeNode},
      InForest (.folder i nm cs e) ns → (idsF ns).Nodup →
      ∀ c ∈ cs, ∀ par, findParentF (tid c) par ns = some (.folder i nm cs e)
  | i, nm, cs, e, _, .head _ rest, hnd => fun c hc par => by
    rw [idsF, List.nodup_append] at hnd
    have h1 := hnd.1
    rw [ids1, List.nodup_cons] at h1
    have hcx : tid c ∈ idsF cs := tid_mem_idsF cs c hc
    have hne : ¬ i = tid c := fun hh => h1.1 (by rw [hh]; exact hcx)
    have hinner : findParentF (tid c) (some (.folder i nm cs e)) cs =
        some (.folder i nm cs e) :=
      findParentF_top_hit (tid c) cs _ h1.2 ⟨c, hc, rfl⟩
    simp [findParentF, findParent1, hne, hinner]
  | i, nm, cs, e, _, .tail m hmem, hnd => fun c hc par => by
    rw [idsF, List.nodup_append] at hnd
    have hcrest := ids1_subset_of_InForest hmem (tid c) (tid_mem_ids1_folder hc)
    have hxm : tid c ∉ ids1 m := fun hin => hnd.2.2 hin hcrest
    simp [findParentF, findParent1_eq_none _ par m hxm,
      findParentF_parent hmem hnd.2.1 c hc par]
  | i, nm, cs, e, _, .child j jn e' rest hmem, hnd => fun c hc par => by
    rw [idsF, List.nodup_append] at hnd
    have h1 := hnd.1
    rw [ids1, List.nodup_cons] at h1
    have hcin := ids1_subset_of_InForest hmem (tid c) (tid_mem_ids1_folder hc)
    have hne : ¬ j = tid c := fun hh => h1.1 (by rw [hh]; exact hcin)
    have hrec := findParentF_parent hmem h1.2 c hc
    simp only [findParentF, findParent1, if_neg hne, hrec (some (.folder j jn _ e'))]

/-! ## C2 — the upward walk reaches the enclosing folder -/

theorem stepN_none (ns : List TreeNode) : ∀ j, stepN ns j none = none := by
  intro j
  induction j with
  | zero => rfl
  | succ j ih => simp [stepN, parentStep, ih]

theorem stepN_succ_outer (ns : List TreeNode) :
    ∀ (k : ℕ) (o : Option TreeNode),
      stepN ns (k + 1) o = parentStep ns (stepN ns k o) := by
  intro k
  induction k with
  | zero => intro o; rfl
  | succ k ih =>
    intro o
    show stepN ns (k + 1) (parentStep ns o) = _
    rw [ih (parentStep ns o)]
    rfl

theorem chain_reaches :
    ∀ (N : ℕ) (cs : List TreeNode), countForest cs ≤ N →
      ∀ (d : TreeNode), InForest d cs →
      ∀ (i nm : String) (e : Bool) (ns : List TreeNode),
        InForest (.folder i nm cs e) ns → (idsF ns).Nodup →
        ∃ k, k < countForest cs ∧
          stepN ns (k + 1) (some d) = some (.folder i nm cs e) := by
  intro N
  induction N with
  | zero =>
    intro cs hcs d hd
    cases cs with
    | nil => cases hd
    | cons m rest =>
      have := count1_pos m
      simp only [countForest] at hcs
      omega
  | succ N ih =>
    intro cs hcs d hd i nm e ns hin hnd
    rcases InForest_decompose hd with hmem | ⟨g, hg, hgd⟩
    · refine ⟨0, ?_, ?_⟩
      · have h1 := count1_le_of_mem cs d hmem
        have h2 := count1_pos d
        omega
      · show stepN ns 1 (some d) = _
        simp only [stepN, parentStep]
        exact findParentF_parent hin hnd d hmem none
    · cases g with
      | file gi gn =>
        simp only [getChildren] at hgd
        cases hgd
      | folder gi gn gcs ge =>
        simp only [getChildren] at hgd
        have hgin : InForest (.folder gi gn gcs ge) ns :=
          InForest_trans (InForest_of_mem cs _ hg) hin
        have hgcount := count1_le_of_mem cs _ hg
        simp only [count1] at hgcount
        have hcs' : countForest gcs ≤ N := by omega
        obtain ⟨k, hk, hstep⟩ := ih gcs hcs' d hgd gi gn ge ns hgin hnd
        refine ⟨k + 1, by omega, ?_⟩
        rw [stepN_succ_outer, hstep]
        simp only [parentStep, tid]
        exact findParentF_parent hin hnd (.folder gi gn gcs ge) hg none

theorem cycleWalk_true_of_stepN :
    ∀ (j : ℕ) (nodes : List TreeNode) (c m : TreeNode) (x : String),
      stepN nodes j (some c) = some m → tid m = x →
      ∀ fuel, j < fuel → cycleWalk nodes x (some c) fuel = true := by
  intro j
  induction j with
  | zero =>
    intro nodes c m x hstep htid fuel hfuel
    simp only [stepN] at hstep
    injection hstep with h
    subst h
    obtain ⟨fuel', rfl⟩ : ∃ f', fuel = f' + 1 := ⟨fuel - 1, by omega⟩
    simp [cycleWalk, htid]
  | succ j ih =>
    intro nodes c m x hstep htid fuel hfuel
    obtain ⟨fuel', rfl⟩ : ∃ f', fuel = f' + 1 := ⟨fuel - 1, by omega⟩
    by_cases hc : tid c = x
    · simp [cycleWalk, hc]
    · simp only [cycleWalk, if_neg hc]
      simp only [stepN, parentStep] at hstep
      cases hp : findParentF (tid c) none nodes with
      | none =>
        rw [hp, stepN_none] at hstep
        cases hstep
      | some c' =>
        rw [hp] at hstep
        exact ih nodes c' m x hstep htid fuel' (by omega)

/-! ## C2 — ids of the tree under remove and insert, as multisets -/

theorem findNode1_of_tid_eq : ∀ (m : TreeNode) (x : String), tid m = x →
    findNode1 x m = some m := by
  intro m x h
  cases m with
  | file i nm => simp only [tid] at h; simp [findNode1, h]
  | folder i nm cs e => simp only [tid] at h; simp [findNode1, h]

/- removing a found node removes exactly its subtree's ids -/
mutual

theorem removeElt_perm (x : String) :
    ∀ m n, (ids1 m).Nodup → tid m ≠ x → findNode1 x m = some n →
      ids1 m ~ ids1 n ++ ids1 (removeElt x m)
  | .file i nm, n, _, hne, hfind => by
    simp only [tid] at hne
    simp [findNode1, hne] at hfind
  | .folder i nm cs e, n, hnd, hne, hfind => by
    simp only [tid] at hne
    simp only [findNode1, if_neg hne] at hfind
    rw [ids1, List.nodup_cons] at hnd
    have hperm := removeNodeF_perm x cs n hnd.2 hfind
    simp only [removeElt, ids1]
    calc (i :: idsF cs : List String)
        ~ i :: (ids1 n ++ idsF (removeNodeF x cs)) := hperm.cons i
      _ ~ ids1 n ++ (i :: idsF (removeNodeF x cs)) := List.perm_middle.symm

theorem removeNodeF_perm (x : String) :
    ∀ ns n, (idsF ns).Nodup → findNodeF x ns = some n →
      idsF ns ~ ids1 n ++ idsF (removeNodeF x ns)
  | [], n, _, hfind => by simp [findNodeF] at hfind
  | m :: rest, n, hnd, hfind => by
    rw [idsF, List.nodup_append] at hnd
    simp only [findNodeF] at hfind
    cases hm : findNode1 x m with
    | some found =>
      rw [hm] at hfind
      injection hfind with hf
      subst hf
      have hxm : x ∈ ids1 m := by
        by_contra hxm
        rw [← findNode1_eq_none_iff x m] at hxm
        simp [hm] at hxm
      have hxrest : x ∉ idsF rest := fun hin => hnd.2.2 hxm hin
      have hrest_eq := removeNodeF_eq_of_not_mem x rest hxrest
      by_cases htid : tid m = x
      · have hm' := findNode1_of_tid_eq m x htid
        rw [hm] at hm'
        injection hm' with hfm
        subst hfm
        simp only [removeNodeF, if_pos htid, hrest_eq, idsF]
        exact List.Perm.refl _
      · have hperm := removeElt_perm x m found hnd.1 htid hm
        simp only [removeNodeF, if_neg htid, hrest_eq, idsF]
        calc ids1 m ++ idsF rest
            ~ (ids1 found ++ ids1 (removeElt x m)) ++ idsF rest :=
              hperm.append_right _
          _ = ids1 found ++ (ids1 (removeElt x m) ++ idsF rest) :=
              List.append_assoc _ _ _
    | none =>
      rw [hm] at hfind
      have hxm : x ∉ ids1 m := (findNode1_eq_none_iff x m).mp hm
      have htid : tid m ≠ x := fun h => hxm (h ▸ tid_mem_ids1 m)
      have hElt := removeElt_eq_of_not_mem x m hxm
      have hperm := removeNodeF_perm x rest n hnd.2.1 hfind
      simp only [removeNodeF, if_neg htid, hElt, idsF]
      calc ids1 m ++ idsF rest
          ~ ids1 m ++ (ids1 n ++ idsF (removeNodeF x rest)) :=
            hperm.append_left _
        _ ~ ids1 n ++ (ids1 m ++ idsF (removeNodeF x rest)) := by
            rw [← List.append_assoc, ← List.append_assoc]
            exact List.perm_append_comm.append_right _

end

/- inserting under a folder of the tree adds exactly the new node's ids -/
mutual

theorem addElt_perm (p : String) (new : TreeNode) :
    ∀ m, (ids1 m).Nodup → hasFolder1 p m = true →
      ids1 (addElt p new m) ~ ids1 m ++ ids1 new
  | .file i nm, _, hf => by simp [hasFolder1] at hf
  | .folder i nm cs e, hnd, hf => by
    by_cases hip : i = p
    · have h1 : idsF [new] = ids1 new := by simp [idsF]
      simp only [addElt, if_pos hip, ids1, idsF_append, h1, List.cons_append]
      exact List.Perm.refl _
    · simp only [hasFolder1, Bool.or_eq_true, beq_iff_eq] at hf
      rcases hf with hf | hf
      · exact absurd hf hip
      · rw [ids1, List.nodup_cons] at hnd
        have hperm := addNodeF_perm p new cs hnd.2 hf
        simp only [addElt, if_neg hip, ids1, List.cons_append]
        exact hperm.cons i

theorem addNodeF_perm (p : String) (new : TreeNode) :
    ∀ ns, (idsF ns).Nodup → hasFolderF p ns = true →
      idsF (addNodeF p new ns) ~ idsF ns ++ ids1 new
  | [], _, hf => by simp [hasFolderF] at hf
  | m :: rest, hnd, hf => by
    rw [idsF, List.nodup_append] at hnd
    cases hm : hasFolder1 p m with
    | true =>
      have hpm := mem_ids1_of_hasFolder1 p m hm
      have hrestf : hasFolderF p rest = false := by
        cases hr : hasFolderF p rest
        · rfl
        · exact absurd (mem_idsF_of_hasFolderF p rest hr) (hnd.2.2 hpm)
      have hrest_eq := addNodeF_eq_of_no_folder p new rest hrestf
      have hperm := addElt_perm p new m hnd.1 hm
      simp only [addNodeF, hrest_eq, idsF]
      calc ids1 (addElt p new m) ++ idsF rest
          ~ (ids1 m ++ ids1 new) ++ idsF rest := hperm.append_right _
        _ ~ (ids1 m ++ idsF rest) ++ ids1 new := by
            rw [List.append_assoc, List.append_assoc]
            exact List.Perm.append_left _ List.perm_append_comm
    | false =>
      have hf' : hasFolderF p rest = true := by
        simp only [hasFolderF, hm, Bool.false_or] at hf
        exact hf
      have hElt := addElt_eq_of_no_folder p new m hm
      have hperm := addNodeF_perm p new rest hnd.2.1 hf'
      simp only [addNodeF, hElt, idsF]
      calc ids1 m ++ idsF (addNodeF p new rest)
          ~ ids1 m ++ (idsF rest ++ ids1 new) := hperm.append_left _
        _ = (ids1 m ++ idsF rest) ++ ids1 new := (List.append_assoc _ _ _).symm

end

/-! ## C2 — `moveNode` preserves global id uniqueness -/

theorem moveNode_nodup (nodes : List TreeNode) (x : String)
    (tgt : Option String) (hnd : (idsF nodes).Nodup) :
    (idsF (moveNode nodes x tgt)).Nodup := by
  cases hfind : findNodeF x nodes with
  | none => simpa [moveNode, hfind]
  | some n =>
    simp only [moveNode, hfind]
    by_cases hcyc : (if jsTruthy tgt then
        cycleWalk nodes x (findNodeF (tgt.getD "") nodes)
          (countForest nodes + 1) else false) = true
    · simpa [hcyc]
    · rw [if_neg hcyc]
      by_cases hguard : idOrNull (findParentF x none nodes) = tgt
      · simpa [hguard]
      · rw [if_neg hguard]
        have hperm := removeNodeF_perm x nodes n hnd hfind
        have hnd2 : (ids1 n ++ idsF (removeNodeF x nodes)).Nodup :=
          hperm.nodup_iff.mp hnd
        rw [List.nodup_append] at hnd2
        by_cases htr : jsTruthy tgt = true
        · rw [if_pos htr]
          cases hhf : hasFolderF (tgt.getD "") (removeNodeF x nodes) with
          | false =>
            rw [addNodeF_eq_of_no_folder _ n _ hhf]
            exact hnd2.2.1
          | true =>
            have hperm2 :=
              addNodeF_perm (tgt.getD "") n (removeNodeF x nodes) hnd2.2.1 hhf
            apply hperm2.nodup_iff.mpr
            rw [List.nodup_append]
            exact ⟨hnd2.2.1, hnd2.1, hnd2.2.2.symm⟩
        · rw [if_neg htr]
          have hsingle : idsF [n] = ids1 n := by simp [idsF]
          rw [idsF_append, hsingle, List.nodup_append]
          exact ⟨hnd2.2.1, hnd2.1, hnd2.2.2.symm⟩

/- globally unique ids imply by-id acyclicity -/
mutual

theorem noSelfId1_of_nodup : ∀ n : TreeNode, (ids1 n).Nodup → noSelfId1 n = true
  | .file _ _, _ => rfl
  | .folder i nm cs e, hnd => by
    rw [ids1, List.nodup_cons] at hnd
    have hrec := noSelfIdF_of_nodup cs hnd.2
    have hcont : (idsF cs).contains i = false := by
      cases hc : (idsF cs).contains i
      · rfl
      · have hmem : i ∈ idsF cs := by simpa using hc
        exact absurd hmem hnd.1
    simp [noSelfId1, hcont, hrec]
    exact hnd.1

theorem noSelfIdF_of_nodup : ∀ ns : List TreeNode,
    (idsF ns).Nodup → noSelfIdF ns = true
  | [], _ => rfl
  | n :: rest, hnd => by
    rw [idsF, List.nodup_append] at hnd
    simp [noSelfIdF, noSelfId1_of_nodup n hnd.1,
      noSelfIdF_of_nodup rest hnd.2.1]

end

theorem moveSeq_nodup : ∀ (ms : List (String × Option String))
    (nodes : List TreeNode), (idsF nodes).Nodup →
    (idsF (moveSeq ms nodes)).Nodup
  | [], nodes, h => h
  | m :: rest, nodes, h => by
    have hstep := moveNode_nodup nodes m.1 m.2 h
    have htail := moveSeq_nodup rest (moveNode nodes m.1 m.2) hstep
    simpa [moveSeq, List.foldl_cons] using htail

/-! ## C2 — cycle guard and acyclicity -/

/-- C2 counterexample: the claim states that moving a node into any of its
descendants leaves the state unchanged, for every tree.  When the descendant's
id is the empty string the guard `if (targetParentId)` is skipped (the empty
string is falsy), the no-op comparison misses, and the root list is reordered:
the node is removed and re-appended at the end of the root sequence. -/
theorem c2_counterexample :
    tid (.folder "" "B" [] false) = "" ∧
    InForest (.folder "" "B" [] false)
      (getChildren (.folder "a" "A" [.folder "" "B" [] false] false)) ∧
    moveNode
        [.folder "a" "A" [.folder "" "B" [] false] false, .file "z" "Z"]
        "a" (some "") ≠
      [.folder "a" "A" [.folder "" "B" [] false] false, .file "z" "Z"] := by
  refine ⟨rfl, InForest.head _ _, ?_⟩
  have hres : moveNode
      [.folder "a" "A" [.folder "" "B" [] false] false, .file "z" "Z"]
      "a" (some "") =
      [.file "z" "Z", .folder "a" "A" [.folder "" "B" [] false] false] := rfl
  rw [hres]
  simp

/-- C2 amended: (i) for a non-empty `nodeId`, `moveNode(nodeId, nodeId)` is
declined; (ii) under globally unique ids, moving a node into any of its
descendants bearing a non-empty id is declined — the state is returned
unchanged; (iii) consequently, starting from a tree with globally unique ids,
after any sequence of `moveNode` calls the ids are still unique and no node
bears the id of one of its own strict descendants (by-id acyclicity). -/
theorem c2_cycle_guard_amended :
    (∀ (nodes : List TreeNode) (nodeId : String), nodeId ≠ "" →
        moveNode nodes nodeId (some nodeId) = nodes) ∧
    (∀ (nodes : List TreeNode) (i nm : String) (cs : List TreeNode) (e : Bool)
        (d : TreeNode),
        (idsF nodes).Nodup → InForest (.folder i nm cs e) nodes →
        InForest d cs → tid d ≠ "" →
        moveNode nodes i (some (tid d)) = nodes) ∧
    (∀ (nodes : List TreeNode) (ms : List (String × Option String)),
        (idsF nodes).Nodup →
        (idsF (moveSeq ms nodes)).Nodup ∧
          noSelfIdF (moveSeq ms nodes) = true) := by
  refine ⟨?_, ?_, ?_⟩
  · intro nodes nodeId hne
    cases hfind : findNodeF nodeId nodes with
    | none => simp [moveNode, hfind]
    | some n =>
      have htid := tid_of_findNodeF nodeId nodes n hfind
      have htruthy : jsTruthy (some nodeId) = true := by simp [jsTruthy, hne]
      have hwalk : cycleWalk nodes nodeId (some n)
          (countForest nodes + 1) = true := by
        simp [cycleWalk, htid]
      simp [moveNode, hfind, htruthy, hwalk]
  · intro nodes i nm cs e d hnd hin hd hne
    have hdin : InForest d nodes := InForest_trans hd hin
    have hfindn : findNodeF i nodes = some (.folder i nm cs e) := by
      have h := findNodeF_first hin hnd
      simpa [tid] using h
    have hfindd : findNodeF (tid d) nodes = some d := findNodeF_first hdin hnd
    obtain ⟨k, hk, hstep⟩ :=
      chain_reaches (countForest cs) cs le_rfl d hd i nm e nodes hin hnd
    have hcount := count1_le_of_InForest hin
    simp only [count1] at hcount
    have hwalk : cycleWalk nodes i (some d) (countForest nodes + 1) = true :=
      cycleWalk_true_of_stepN (k + 1) nodes d (.folder i nm cs e) i hstep rfl
        (countForest nodes + 1) (by omega)
    have htruthy : jsTruthy (some (tid d)) = true := by simp [jsTruthy, hne]
    simp [moveNode, hfindn, htruthy, hfindd, hwalk]
  · intro nodes ms hnd
    have h1 := moveSeq_nodup ms nodes hnd
    exact ⟨h1, noSelfIdF_of_nodup _ h1⟩

/-- Witness for C2 (amended), and the claim's own concrete scenario: given
`root/A/B`, `moveNode(A, B.id)` leaves the tree unchanged. -/
theorem c2_witness :
    moveNode [.folder "a" "A" [.folder "b" "B" [] false] false] "a"
        (some "b") =
      [.folder "a" "A" [.folder "b" "B" [] false] false] :=
  c2_cycle_guard_amended.2.1
    [.folder "a" "A" [.folder "b" "B" [] false] false]
    "a" "A" [.folder "b" "B" [] false] false (.folder "b" "B" [] false)
    (by decide) (InForest.head _ _) (InForest.head _ _) (by decide)
